import Mathlib

/-!
# Token expansion engine of `zync_maya.py` — a shallow embedding

This file embeds the token-expansion engine of the repository
(`expandFileTokens` and its helper `_substitute`, together with the two
regular expressions `\[([^\]]+)\]` and `<([a-zA-Z]+)>` they split on, the
`even`/`odd` helpers, and the `shlex`-based parsing of the space-separated
`key=value` token-string form) as executable Lean functions over `List Char`,
and proves the specification claims about them.

Python strings are `List Char`; a Python `dict` mapping token names to a
string value or to `None` is an association list
`List (List Char × Option (List Char))` queried with `List.lookup`
(insertion with replacement, `dictInsert`, models `dict` construction where a
later duplicate key overrides an earlier one); a Python function that can
raise returns an `Option`.
-/

/-- The source's helper `even(num) = bool(num % 2)`.  Note that, exactly as in
the source, this is `True` on odd numbers: the code uses it consistently, so
the behaviour is as documented even though the name is swapped. -/
def even (num : Nat) : Bool := num % 2 != 0

/-- The source's helper `odd(num) = not bool(num % 2)` (true on even numbers,
see `even`). -/
def odd (num : Nat) : Bool := !(num % 2 != 0)

/-- A Python token dictionary: token name to string value or `None`
(the absent marker). -/
abbrev TokenMap := List (List Char × Option (List Char))

/-- `'<' + tok + '>'`: the literal form `'<%s>' % tok` of a token. -/
def angle (tok : List Char) : List Char := '<' :: (tok ++ ['>'])

/-- `value.replace(':', '_')`. -/
def colonFix (v : List Char) : List Char := v.map (fun c => if c = ':' then '_' else c)

/-- A character matched by the regex class `[a-zA-Z]`. -/
def isTokenChar (c : Char) : Bool :=
  (65 ≤ c.toNat && c.toNat ≤ 90) || (97 ≤ c.toNat && c.toNat ≤ 122)

/-- One-pass scanner for `re.split('<([a-zA-Z]+)>', s)`.  The first argument
is the mode: `none` scans for the next `'<'` with `lit` the (reversed)
pending literal; `some tok` is inside a candidate match, `tok` the (reversed)
alphabetic run read since the opening `'<'`.  A run closed by `'>'` while
non-empty is a match: the pending literal and the captured name are emitted
(so the result alternates literal, name, literal, …, starting and ending with
a possibly empty literal, exactly as `re.split` with one capture group); any
other way out of a candidate turns its text back into literal characters,
and the scan resumes at the offending character, exactly as the regex engine
retries at the next start position (no later start inside the all-alphabetic
run can begin a match). -/
def tokSplitGo : Option (List Char) → List Char → List Char → List (List Char)
  | none, lit, [] => [lit.reverse]
  | none, lit, c :: rest =>
    if c = '<' then tokSplitGo (some []) lit rest
    else tokSplitGo none (c :: lit) rest
  | some tok, lit, [] => [(tok ++ ('<' :: lit)).reverse]
  | some tok, lit, c :: rest =>
    if isTokenChar c then tokSplitGo (some (c :: tok)) lit rest
    else if c = '>' then
      (if tok.isEmpty then tokSplitGo none ('>' :: '<' :: lit) rest
       else lit.reverse :: tok.reverse :: tokSplitGo none [] rest)
    else if c = '<' then tokSplitGo (some []) (tok ++ ('<' :: lit)) rest
    else tokSplitGo none (c :: (tok ++ ('<' :: lit))) rest

/-- `re.split('<([a-zA-Z]+)>', s)` — the `tok_reg` split of the source. -/
def tokSplit (s : List Char) : List (List Char) := tokSplitGo none [] s

/-- One-pass scanner for `re.split('\[([^\]]+)\]', s)`.  `none` scans for the
next `'['` with `lit` the (reversed) pending literal; `some content` is
inside a candidate bracket group, `content` the (reversed) run of non-`']'`
characters read since the opening `'['` (the class `[^\]]` admits a nested
`'['`, which therefore joins the content, exactly as in the regex).  A `']'`
closing a non-empty content is a match; a `']'` right after the `'['` is not
(`[^\]]+` needs at least one character), so both brackets become literal
text, and an unclosed group is flushed back to literal text at the end of
input. -/
def grpSplitGo : Option (List Char) → List Char → List Char → List (List Char)
  | none, lit, [] => [lit.reverse]
  | none, lit, c :: rest =>
    if c = '[' then grpSplitGo (some []) lit rest
    else grpSplitGo none (c :: lit) rest
  | some content, lit, [] => [(content ++ ('[' :: lit)).reverse]
  | some content, lit, c :: rest =>
    if c = ']' then
      (if content.isEmpty then grpSplitGo none (']' :: '[' :: lit) rest
       else lit.reverse :: content.reverse :: grpSplitGo none [] rest)
    else grpSplitGo (some (c :: content)) lit rest

/-- `re.split('\[([^\]]+)\]', s)` — the `grp_reg` split of the source. -/
def grpSplit (s : List Char) : List (List Char) := grpSplitGo none [] s

/-- The loop body of `_substitute`: `i` is the enumeration index, `acc` the
joined `result` list built so far.  At a token position (`even i`, which in
the source's swapped naming means `i` odd) the token is looked up: a value
substitutes with `':'` rewritten to `'_'`, the absent marker `None`
substitutes the literal form `<tok>`, and on `KeyError` the `allOrNothing`
mode returns immediately — discarding `acc` — with `<tok>` or `''` depending
on `leaveUnmatchedTokens`, while the independent mode appends `<tok>` or `''`
and continues.  Literal positions are appended unchanged. -/
def substAux (tokens : TokenMap) (allOrNothing leaveUnmatchedTokens : Bool) :
    Nat → List (List Char) → List Char → List Char
  | _, [], acc => acc
  | i, tok :: rest, acc =>
    if even i then
      match List.lookup tok tokens with
      | some (some v) =>
        substAux tokens allOrNothing leaveUnmatchedTokens (i+1) rest (acc ++ colonFix v)
      | some none =>
        substAux tokens allOrNothing leaveUnmatchedTokens (i+1) rest (acc ++ angle tok)
      | none =>
        if allOrNothing then
          (if leaveUnmatchedTokens then angle tok else [])
        else
          substAux tokens allOrNothing leaveUnmatchedTokens (i+1) rest
            (acc ++ (if leaveUnmatchedTokens then angle tok else []))
    else substAux tokens allOrNothing leaveUnmatchedTokens (i+1) rest (acc ++ tok)

/-- The source's `_substitute(parts, tokens, allOrNothing, leaveUnmatchedTokens)`. -/
def _substitute (parts : List (List Char)) (tokens : TokenMap)
    (allOrNothing leaveUnmatchedTokens : Bool) : List Char :=
  substAux tokens allOrNothing leaveUnmatchedTokens 0 parts []

/-- The loop of `expandFileTokens`: piece `i` of the bracket split is token
split and substituted, in all-or-nothing mode exactly when `even i` (in the
source's swapped naming: when `i` is odd, i.e. for bracket-group contents). -/
def expandPieces (tokens : TokenMap) (leaveUnmatchedTokens : Bool) :
    Nat → List (List Char) → List (List Char)
  | _, [] => []
  | i, grp :: rest =>
    (if even i then
      _substitute (tokSplit grp) tokens true leaveUnmatchedTokens
     else
      _substitute (tokSplit grp) tokens false leaveUnmatchedTokens)
      :: expandPieces tokens leaveUnmatchedTokens (i+1) rest

/-- The source's `expandFileTokens(path, tokens, leaveUnmatchedTokens)` for a
dictionary `tokens` argument: split on bracket groups, substitute each piece,
join. -/
def expandFileTokens (path : List Char) (tokens : TokenMap)
    (leaveUnmatchedTokens : Bool) : List Char :=
  (expandPieces tokens leaveUnmatchedTokens 0 (grpSplit path)).flatten

/-- States of the POSIX `shlex` tokenizer used by `shlex.split`. -/
inductive SState
  | normal | squote | dquote | esc | escDq

/-- `shlex` whitespace (`' \t\r\n'`). -/
def isWs (c : Char) : Bool := c = ' ' || c = '\t' || c = '\r' || c = '\n'

/-- The POSIX `shlex.split` state machine (`whitespace_split=True`): `started`
records whether a token is in progress (so closing an empty quote still emits
an empty token), `cur` the token so far, `acc` the emitted tokens.  End of
input inside a quote or after a bare backslash is a `ValueError`, hence
`none`. -/
def shlexRun : SState → Bool → List Char → List (List Char) → List Char →
    Option (List (List Char))
  | .normal, started, cur, acc, [] => some (acc ++ if started then [cur] else [])
  | _, _, _, _, [] => none
  | .normal, started, cur, acc, c :: rest =>
    if isWs c then
      if started then shlexRun .normal false [] (acc ++ [cur]) rest
      else shlexRun .normal false [] acc rest
    else if c = '\'' then shlexRun .squote true cur acc rest
    else if c = '"' then shlexRun .dquote true cur acc rest
    else if c = '\\' then shlexRun .esc true cur acc rest
    else shlexRun .normal true (cur ++ [c]) acc rest
  | .squote, _, cur, acc, c :: rest =>
    if c = '\'' then shlexRun .normal true cur acc rest
    else shlexRun .squote true (cur ++ [c]) acc rest
  | .dquote, _, cur, acc, c :: rest =>
    if c = '"' then shlexRun .normal true cur acc rest
    else if c = '\\' then shlexRun .escDq true cur acc rest
    else shlexRun .dquote true (cur ++ [c]) acc rest
  | .esc, _, cur, acc, c :: rest => shlexRun .normal true (cur ++ [c]) acc rest
  | .escDq, _, cur, acc, c :: rest =>
    if c = '"' || c = '\\' then shlexRun .dquote true (cur ++ [c]) acc rest
    else shlexRun .dquote true (cur ++ ['\\', c]) acc rest

/-- `shlex.split(s)` (POSIX mode), `none` on `ValueError`. -/
def shlexSplit (s : List Char) : Option (List (List Char)) :=
  shlexRun .normal false [] [] s

/-- `pair.split('=')` (split on every `'='`). -/
def splitEqAux (acc : List Char) : List Char → List (List Char)
  | [] => [acc.reverse]
  | c :: rest => if c = '=' then acc.reverse :: splitEqAux [] rest
                 else splitEqAux (c :: acc) rest

/-- `pair.split('=')`. -/
def splitEq (s : List Char) : List (List Char) := splitEqAux [] s

/-- Insertion into a dictionary: a repeated key overrides the old value. -/
def dictInsert (m : TokenMap) (k : List Char) (v : Option (List Char)) : TokenMap :=
  match m with
  | [] => [(k, v)]
  | (k', v') :: rest => if k' = k then (k, v) :: rest else (k', v') :: dictInsert rest k v

/-- `dict(listOfPairLists)`: every element must have exactly two entries,
otherwise Python raises `ValueError`, hence `none`. -/
def dictOfPairs (m : TokenMap) : List (List (List Char)) → Option TokenMap
  | [] => some m
  | [k, v] :: rest => dictOfPairs (dictInsert m k (some v)) rest
  | _ => none

/-- `dict([pair.split('=') for pair in shlex.split(tokens)])` — the parsing of
the space-separated `key=value` string form of the `tokens` argument, `none`
where Python raises. -/
def parseTokenStr (s : List Char) : Option TokenMap :=
  match shlexSplit s with
  | none => none
  | some words => dictOfPairs [] (words.map splitEq)

/-- `expandFileTokens` with its exceptions made explicit and both accepted
forms of the `tokens` argument: a dictionary (`Sum.inl`) or the space-separated
`key=value` string form (`Sum.inr`), which is parsed first and whose parse can
raise. -/
def expandFileTokensE (path : List Char) (tokens : Sum TokenMap (List Char))
    (leaveUnmatchedTokens : Bool) : Option (List Char) :=
  match tokens with
  | .inl m => some (expandFileTokens path m leaveUnmatchedTokens)
  | .inr s => (parseTokenStr s).map (fun m => expandFileTokens path m leaveUnmatchedTokens)

/-- The first (left-to-right) token of `parts` (token positions are those with
`even i`) whose name is not a key of `tokens` — the token whose `KeyError`
short-circuits the all-or-nothing mode, if any. -/
def firstFail (tokens : TokenMap) : Nat → List (List Char) → Option (List Char)
  | _, [] => none
  | i, tok :: rest =>
    if even i then
      match List.lookup tok tokens with
      | none => some tok
      | some _ => firstFail tokens (i+1) rest
    else firstFail tokens (i+1) rest

/-- The literal characters of a token split: the concatenation of the pieces
at literal positions (those with `even i = false`). -/
def lits : Nat → List (List Char) → List Char
  | _, [] => []
  | i, tok :: rest => (if even i then [] else tok) ++ lits (i+1) rest

/-- The literal characters of a bracket split that lie outside dropped groups:
group pieces (`even i`) whose token split has a failing token contribute
nothing, every other piece contributes its literal characters. -/
def litsPieces (tokens : TokenMap) : Nat → List (List Char) → List Char
  | _, [] => []
  | i, grp :: rest =>
    (if even i then
       (if (firstFail tokens 0 (tokSplit grp)).isSome then [] else lits 0 (tokSplit grp))
     else lits 0 (tokSplit grp)) ++ litsPieces tokens (i+1) rest

/-- All literal characters of `path` outside dropped groups. -/
def literalChars (path : List Char) (tokens : TokenMap) : List Char :=
  litsPieces tokens 0 (grpSplit path)

/-- Re-joining a token split, each name restored to its `<name>` form. -/
def rejoin : Nat → List (List Char) → List Char
  | _, [] => []
  | i, p :: rest => (if even i then angle p else p) ++ rejoin (i+1) rest

/-- Every captured piece (position with `even i`) of a split is non-empty. -/
def capturesNonempty : Nat → List (List Char) → Bool
  | _, [] => true
  | i, p :: rest => (if even i then !p.isEmpty else true) && capturesNonempty (i+1) rest

/-- `even` alternates (in the source's swapped sense). -/
theorem even_succ (i : Nat) : even (i+1) = !(even i) := by
  rcases Nat.mod_two_eq_zero_or_one i with h | h <;> simp [even, Nat.add_mod, h]

/-- `even` has period two. -/
theorem even_add_two (i : Nat) : even (i+2) = even i := by
  rw [show i + 2 = (i + 1) + 1 from rfl, even_succ, even_succ, Bool.not_not]

/-- Claim C5: a token whose name is present in the mapping but mapped to the
absent marker (`None`) substitutes as its literal form `<token>` — appended
verbatim, with no colon rewrite — in either substitution mode (`allOrNothing`
true or false, i.e. inside or outside a bracket group) and for either flag
value, and processing continues with the rest of the parts; moreover such a
token is not counted by `firstFail`, so it never triggers the all-or-nothing
group failure. -/
theorem claim_C5 (tokens : TokenMap) (aon lum : Bool) (i : Nat)
    (acc s : List Char) (rest : List (List Char))
    (hi : even i = true) (hs : List.lookup s tokens = some none) :
    substAux tokens aon lum i (s :: rest) acc
      = substAux tokens aon lum (i+1) rest (acc ++ angle s) ∧
    firstFail tokens i (s :: rest) = firstFail tokens (i+1) rest := by
  constructor
  · simp [substAux, hi, hs]
  · simp [firstFail, hi, hs]

/-- Witness for C5 at a concrete input. -/
theorem claim_C5_witness :
    even 1 = true ∧
    List.lookup "A".data [("A".data, (none : Option (List Char)))] = some none ∧
    substAux [("A".data, none)] true true 1 ["A".data, "y".data] "x".data
      = substAux [("A".data, none)] true true 2 ["y".data] ("x".data ++ angle "A".data) :=
  ⟨by decide, by decide,
    (claim_C5 [("A".data, none)] true true 1 "x".data "A".data ["y".data]
      (by decide) (by decide)).1⟩

/-- Claim C6: a token that resolves to a string value is inserted with every
`':'` of the value rewritten to `'_'` (the `colonFix` map), while a piece at a
literal position is appended completely unchanged — in particular a `':'`
written directly in the template stays `':'`.  (The `<token>` fallback form is
appended verbatim as well: see `claim_C5` and `claim_C7`.) -/
theorem claim_C6 (tokens : TokenMap) (aon lum : Bool) (i : Nat)
    (acc s : List Char) (rest : List (List Char)) :
    (even i = true → ∀ v, List.lookup s tokens = some (some v) →
      substAux tokens aon lum i (s :: rest) acc
        = substAux tokens aon lum (i+1) rest (acc ++ colonFix v)) ∧
    (even i = false →
      substAux tokens aon lum i (s :: rest) acc
        = substAux tokens aon lum (i+1) rest (acc ++ s)) := by
  constructor
  · intro hi v hv; simp [substAux, hi, hv]
  · intro hi; simp [substAux, hi]

/-- Witness for C6 at a concrete input: the value `"x:y"` is inserted as
`"x_y"`, and a literal `":"` piece is appended unchanged. -/
theorem claim_C6_witness :
    even 1 = true ∧
    List.lookup "A".data [("A".data, some "x:y".data)] = some (some "x:y".data) ∧
    substAux [("A".data, some "x:y".data)] false false 1 ["A".data] []
      = substAux [("A".data, some "x:y".data)] false false 2 [] "x_y".data ∧
    even 2 = false ∧
    substAux [("A".data, some "x:y".data)] false false 2 [":".data] "x_y".data
      = substAux [("A".data, some "x:y".data)] false false 3 [] ("x_y".data ++ ":".data) := by
  refine ⟨by decide, by decide, ?_, by decide, ?_⟩
  · have h := (claim_C6 [("A".data, some "x:y".data)] false false 1 [] "A".data []).1
      (by decide) "x:y".data (by decide)
    simpa using h
  · exact (claim_C6 [("A".data, some "x:y".data)] false false 2 "x_y".data ":".data []).2
      (by decide)

/-- Claim C7: in the independent mode (`allOrNothing = false`, the mode
`expandFileTokens` applies to every span outside bracket groups), a token
whose name is not a key of the mapping substitutes as the empty string when
`leaveUnmatchedTokens` is false and as its literal form `<token>` when it is
true, and processing continues with the rest of the parts — each placeholder
is resolved independently. -/
theorem claim_C7 (tokens : TokenMap) (lum : Bool) (i : Nat)
    (acc s : List Char) (rest : List (List Char))
    (hi : even i = true) (hs : List.lookup s tokens = none) :
    substAux tokens false lum i (s :: rest) acc
      = substAux tokens false lum (i+1) rest
          (acc ++ (if lum then angle s else [])) := by
  simp [substAux, hi, hs]

/-- Witness for C7 at a concrete input (both flag values). -/
theorem claim_C7_witness :
    even 1 = true ∧
    List.lookup "B".data ([] : TokenMap) = none ∧
    substAux [] false false 1 ["B".data] "a".data
      = substAux [] false false 2 [] ("a".data ++ []) ∧
    substAux [] false true 1 ["B".data] "a".data
      = substAux [] false true 2 [] ("a".data ++ angle "B".data) := by
  refine ⟨by decide, by decide, ?_, ?_⟩
  · have h := claim_C7 [] false 1 "a".data "B".data [] (by decide) (by decide)
    simpa using h
  · have h := claim_C7 [] true 1 "a".data "B".data [] (by decide) (by decide)
    simpa using h

/-- Claim C8: `expandFileTokens` is a pure, deterministic function of the
template, the token mapping and the flag — two calls with equal arguments
return equal strings.  The embedding itself witnesses the absence of external
state: `expandFileTokens` is a total function of exactly these three
arguments. -/
theorem claim_C8 (p1 p2 : List Char) (m1 m2 : TokenMap) (f1 f2 : Bool)
    (hp : p1 = p2) (hm : m1 = m2) (hf : f1 = f2) :
    expandFileTokens p1 m1 f1 = expandFileTokens p2 m2 f2 := by
  rw [hp, hm, hf]

/-- Witness for C8 at a concrete input. -/
theorem claim_C8_witness :
    expandFileTokens "a<X>".data [("X".data, some "1".data)] false
      = expandFileTokens "a<X>".data [("X".data, some "1".data)] false :=
  claim_C8 _ _ _ _ _ _ rfl rfl rfl

/-- In all-or-nothing mode, the first token missing from the mapping makes
`substAux` return immediately — discarding the accumulated result — with the
token's literal form (flag set) or the empty string (flag clear). -/
theorem substAux_shortCircuit (tokens : TokenMap) (lum : Bool) :
    ∀ (parts : List (List Char)) (i : Nat) (acc name : List Char),
      firstFail tokens i parts = some name →
      substAux tokens true lum i parts acc = (if lum then angle name else []) := by
  intro parts
  induction parts with
  | nil => intro i acc name h; simp [firstFail] at h
  | cons tok rest ih =>
    intro i acc name h
    cases hi : even i with
    | false =>
      have h' : firstFail tokens (i+1) rest = some name := by
        simpa [firstFail, hi] using h
      simpa [substAux, hi] using ih (i+1) (acc ++ tok) name h'
    | true =>
      cases hlk : List.lookup tok tokens with
      | none =>
        have hn : tok = name := by simpa [firstFail, hi, hlk] using h
        subst hn
        simp [substAux, hi, hlk]
      | some v =>
        have h' : firstFail tokens (i+1) rest = some name := by
          simpa [firstFail, hi, hlk] using h
        cases v with
        | none => simpa [substAux, hi, hlk] using ih (i+1) (acc ++ angle tok) name h'
        | some w => simpa [substAux, hi, hlk] using ih (i+1) (acc ++ colonFix w) name h'

/-- The piece at index `i` of the `expandFileTokens` loop is the substitution
of the `i`-th piece of the bracket split, all-or-nothing exactly on `even`
indices. -/
theorem expandPieces_getElem (tokens : TokenMap) (lum : Bool) :
    ∀ (l : List (List Char)) (j i : Nat),
      (expandPieces tokens lum j l)[i]? =
        (l[i]?).map (fun grp =>
          if even (j+i) then _substitute (tokSplit grp) tokens true lum
          else _substitute (tokSplit grp) tokens false lum) := by
  intro l
  induction l with
  | nil => intro j i; simp [expandPieces]
  | cons grp rest ih =>
    intro j i
    cases i with
    | zero => simp [expandPieces]
    | succ k =>
      simp only [expandPieces, List.getElem?_cons_succ]
      rw [ih (j+1) k]
      have harith : j + 1 + k = j + (k + 1) := by omega
      rw [harith]

/-- Claim C1: a bracket group (a piece of the bracket split at a position
with `even i`, which `expandFileTokens` substitutes in all-or-nothing mode)
that contains a placeholder whose name is absent from the mapping — keys
mapped to the absent marker do not count, see `firstFail` — contributes to
the result exactly the empty string when `leaveUnmatchedTokens` is false, and
exactly the literal form `<T>` of the first (left-to-right) failing
placeholder when it is true, all other literal text and already-resolved
values of the group being discarded; the result of `expandFileTokens` is the
concatenation of the pieces in order. -/
theorem claim_C1 (path : List Char) (tokens : TokenMap) (lum : Bool)
    (i : Nat) (grp name : List Char)
    (hg : (grpSplit path)[i]? = some grp) (hi : even i = true)
    (hf : firstFail tokens 0 (tokSplit grp) = some name) :
    (expandPieces tokens lum 0 (grpSplit path))[i]?
      = some (if lum then angle name else []) ∧
    expandFileTokens path tokens lum
      = (expandPieces tokens lum 0 (grpSplit path)).flatten := by
  refine ⟨?_, rfl⟩
  rw [expandPieces_getElem tokens lum (grpSplit path) 0 i, hg]
  simp only [Nat.zero_add, Option.map_some', hi, if_true]
  exact congrArg some
    (substAux_shortCircuit tokens lum (tokSplit grp) 0 [] name hf)

/-- Witness for C1 at the spec's own example `a[<X><Y>]b` with `X = 1`,
`Y` missing and the flag clear: the group's contribution is the empty
string. -/
theorem claim_C1_witness :
    (grpSplit "a[<X><Y>]b".data)[1]? = some "<X><Y>".data ∧
    even 1 = true ∧
    firstFail [("X".data, some "1".data)] 0 (tokSplit "<X><Y>".data)
      = some "Y".data ∧
    (expandPieces [("X".data, some "1".data)] false 0
        (grpSplit "a[<X><Y>]b".data))[1]? = some [] := by
  refine ⟨by decide, by decide, by decide, ?_⟩
  have h := (claim_C1 "a[<X><Y>]b".data [("X".data, some "1".data)] false 1
    "<X><Y>".data "Y".data (by decide) (by decide) (by decide)).1
  simpa using h

/-- As long as the all-or-nothing mode has no failing token (and always in
the independent mode), `substAux` keeps the accumulated result and every
literal piece, in order: the accumulator followed by the literal characters
is a subsequence of the output. -/
theorem substAux_lits_sublist (tokens : TokenMap) (lum : Bool) :
    ∀ (parts : List (List Char)) (aon : Bool) (i : Nat) (acc : List Char),
      (aon = true → firstFail tokens i parts = none) →
      List.Sublist (acc ++ lits i parts) (substAux tokens aon lum i parts acc) := by
  intro parts
  induction parts with
  | nil => intro aon i acc _; simp [lits, substAux]
  | cons tok rest ih =>
    intro aon i acc hnf
    cases hi : even i with
    | false =>
      have hnf' : aon = true → firstFail tokens (i+1) rest = none := by
        intro ha; simpa [firstFail, hi] using hnf ha
      have h := ih aon (i+1) (acc ++ tok) hnf'
      simpa [substAux, hi, lits, List.append_assoc] using h
    | true =>
      cases hlk : List.lookup tok tokens with
      | some v =>
        have hnf' : aon = true → firstFail tokens (i+1) rest = none := by
          intro ha; simpa [firstFail, hi, hlk] using hnf ha
        cases v with
        | some w =>
          have h1 := ih aon (i+1) (acc ++ colonFix w) hnf'
          have h2 : List.Sublist (acc ++ lits (i+1) rest)
              ((acc ++ colonFix w) ++ lits (i+1) rest) := by
            rw [List.append_assoc]
            exact (List.Sublist.refl acc).append (List.sublist_append_right _ _)
          have h3 := h2.trans h1
          simpa [substAux, hi, hlk, lits] using h3
        | none =>
          have h1 := ih aon (i+1) (acc ++ angle tok) hnf'
          have h2 : List.Sublist (acc ++ lits (i+1) rest)
              ((acc ++ angle tok) ++ lits (i+1) rest) := by
            rw [List.append_assoc]
            exact (List.Sublist.refl acc).append (List.sublist_append_right _ _)
          have h3 := h2.trans h1
          simpa [substAux, hi, hlk, lits] using h3
      | none =>
        cases aon with
        | true =>
          have := hnf rfl
          simp [firstFail, hi, hlk] at this
        | false =>
          have h1 := ih false (i+1) (acc ++ (if lum then angle tok else []))
            (fun h => absurd h Bool.false_ne_true)
          have h2 : List.Sublist (acc ++ lits (i+1) rest)
              ((acc ++ (if lum then angle tok else [])) ++ lits (i+1) rest) := by
            rw [List.append_assoc]
            exact (List.Sublist.refl acc).append (List.sublist_append_right _ _)
          have h3 := h2.trans h1
          simpa [substAux, hi, hlk, lits] using h3

/-- Pieces version of `substAux_lits_sublist`: the literal characters outside
dropped groups are a subsequence of the joined expansion. -/
theorem litsPieces_sublist (tokens : TokenMap) (lum : Bool) :
    ∀ (l : List (List Char)) (i : Nat),
      List.Sublist (litsPieces tokens i l)
        ((expandPieces tokens lum i l).flatten) := by
  intro l
  induction l with
  | nil => intro i; simp [litsPieces, expandPieces]
  | cons grp rest ih =>
    intro i
    have htail := ih (i+1)
    cases hi : even i with
    | false =>
      have hhead := substAux_lits_sublist tokens lum (tokSplit grp) false 0 []
        (fun h => absurd h Bool.false_ne_true)
      simp only [List.nil_append] at hhead
      simpa [litsPieces, expandPieces, hi, _substitute] using hhead.append htail
    | true =>
      cases hff : firstFail tokens 0 (tokSplit grp) with
      | some name =>
        have hhead : List.Sublist ([] : List Char)
            (_substitute (tokSplit grp) tokens true lum) := List.nil_sublist _
        simpa [litsPieces, expandPieces, hi, hff] using hhead.append htail
      | none =>
        have hhead := substAux_lits_sublist tokens lum (tokSplit grp) true 0 []
          (fun _ => hff)
        simp only [List.nil_append] at hhead
        simpa [litsPieces, expandPieces, hi, hff, _substitute] using hhead.append htail

/-- Claim C3: for every template, token mapping and flag value (in
particular for every template with balanced single-level brackets), the
literal characters of the template — the characters at literal positions of
the token splits, i.e. not part of a placeholder or a bracket-group
delimiter — that lie outside of dropped groups appear verbatim and in their
original order in the result of `expandFileTokens`: their concatenation is a
subsequence of the result. -/
theorem claim_C3 (path : List Char) (tokens : TokenMap) (lum : Bool) :
    List.Sublist (literalChars path tokens)
      (expandFileTokens path tokens lum) :=
  litsPieces_sublist tokens lum (grpSplit path) 0

/-- With an empty mapping, independent mode and the flag set, `substAux`
restores every token to its `<name>` form and keeps every literal: it
re-joins its parts. -/
theorem substAux_nil_rejoin (parts : List (List Char)) :
    ∀ (i : Nat) (acc : List Char),
      substAux [] false true i parts acc = acc ++ rejoin i parts := by
  induction parts with
  | nil => intro i acc; simp [substAux, rejoin]
  | cons tok rest ih =>
    intro i acc
    cases hi : even i with
    | false => simp [substAux, hi, rejoin, ih (i+1) (acc ++ tok), List.append_assoc]
    | true =>
      have hlk : List.lookup tok ([] : TokenMap) = none := rfl
      simp [substAux, hi, hlk, rejoin, ih (i+1) (acc ++ angle tok), List.append_assoc]

/-- Re-joining the token split of `s` gives back `s`: the split loses no
characters, and `<name>` is the name's original text. -/
theorem rejoin_tokSplitGo :
    ∀ (s lit : List Char) (i : Nat), even i = false →
      (rejoin i (tokSplitGo none lit s) = lit.reverse ++ s ∧
       ∀ tok, rejoin i (tokSplitGo (some tok) lit s)
         = lit.reverse ++ '<' :: (tok.reverse ++ s)) := by
  intro s
  induction s with
  | nil =>
    intro lit i hi
    constructor
    · simp [tokSplitGo, rejoin, hi]
    · intro tok; simp [tokSplitGo, rejoin, hi]
  | cons c rest ih =>
    intro lit i hi
    constructor
    · by_cases hc : c = '<'
      · subst hc
        have h := (ih lit i hi).2 []
        simpa [tokSplitGo] using h
      · have h := (ih (c :: lit) i hi).1
        simpa [tokSplitGo, hc] using h
    · intro tok
      by_cases ha : isTokenChar c
      · have h := (ih lit i hi).2 (c :: tok)
        simpa [tokSplitGo, ha] using h
      · by_cases hgt : c = '>'
        · subst hgt
          by_cases hemp : tok.isEmpty
          · have htok : tok = [] := by simpa using hemp
            subst htok
            have h := (ih ('>' :: '<' :: lit) i hi).1
            simpa [tokSplitGo, ha, hemp] using h
          · have hrec := (ih [] (i+2) (by rw [even_add_two]; exact hi)).1
            have hsucc : even (i+1) = true := by rw [even_succ, hi]; rfl
            simp [tokSplitGo, ha, hemp, rejoin, hi, hsucc,
              show i + 1 + 1 = i + 2 from rfl, hrec, angle]
        · by_cases hlt : c = '<'
          · subst hlt
            have h := (ih (tok ++ ('<' :: lit)) i hi).2 []
            simpa [tokSplitGo, ha, hgt] using h
          · have h := (ih (c :: (tok ++ ('<' :: lit))) i hi).1
            simpa [tokSplitGo, ha, hgt, hlt] using h

/-- Claim C4 is false as stated: re-expanding an output that itself contains
a bracket group changes it.  On the template `[[x]]` (empty mapping, flag
clear) the first expansion yields `[x]`, and re-expansion with an empty
mapping and `leaveUnmatchedTokens = true` strips the surviving group,
yielding `x`. -/
theorem claim_C4_counterexample :
    expandFileTokens (expandFileTokens "[[x]]".data [] false) [] true
      ≠ expandFileTokens "[[x]]".data [] false := by decide

/-- Claim C4, amended: a string in which the bracket-group regex finds no
match (its bracket split is the single piece `[r]`) — in particular any first
result containing no bracket group — is a fixed point of re-expansion with
the empty mapping and `leaveUnmatchedTokens = true`: unmatched placeholders
are restored to their `<name>` form and all other text is kept. -/
theorem claim_C4 (r : List Char) (hr : grpSplit r = [r]) :
    expandFileTokens r [] true = r := by
  unfold expandFileTokens
  rw [hr]
  have h0 : even 0 = false := rfl
  simp only [expandPieces, h0, Bool.false_eq_true, if_false, List.flatten,
    List.append_nil, _substitute]
  rw [substAux_nil_rejoin (tokSplit r) 0 []]
  have h := (rejoin_tokSplitGo r [] 0 rfl).1
  simpa [tokSplit] using h

/-- Witness for C4 at the spec's own example: the first result
`filename<RenderPass>.jpg` contains no bracket group and re-expands to
itself. -/
theorem claim_C4_witness :
    grpSplit (expandFileTokens "filename[_<RenderPass>].jpg".data [] true)
      = [expandFileTokens "filename[_<RenderPass>].jpg".data [] true] ∧
    expandFileTokens
        (expandFileTokens "filename[_<RenderPass>].jpg".data [] true) [] true
      = expandFileTokens "filename[_<RenderPass>].jpg".data [] true :=
  ⟨by decide, claim_C4 _ (by decide)⟩

/-- A string with no `']'` has no bracket-group match: the split is the
single piece made of the pending literal followed by the string. -/
theorem grpSplitGo_no_rbracket :
    ∀ (s : List Char), ']' ∉ s → ∀ lit : List Char,
      (grpSplitGo none lit s = [lit.reverse ++ s] ∧
       ∀ content, grpSplitGo (some content) lit s
         = [(content ++ ('[' :: lit)).reverse ++ s]) := by
  intro s
  induction s with
  | nil => intro _ lit; constructor <;> simp [grpSplitGo]
  | cons c rest ih =>
    intro hmem lit
    have hc : c ≠ ']' := fun h => hmem (h ▸ List.mem_cons_self c rest)
    have hrest : ']' ∉ rest := fun h => hmem (List.mem_cons_of_mem c h)
    constructor
    · by_cases hb : c = '['
      · subst hb
        have h := (ih hrest lit).2 []
        simpa [grpSplitGo] using h
      · have h := (ih hrest (c :: lit)).1
        simpa [grpSplitGo, hb] using h
    · intro content
      have h := (ih hrest lit).2 (c :: content)
      simpa [grpSplitGo, hc] using h

/-- Claim C2 is false as stated: the space-separated string form of the
token mapping can raise.  On `tokens = "abc"` (a pair with no `'='`),
`dict([pair.split('=') for pair in shlex.split(tokens)])` raises
`ValueError`, so `expandFileTokens` raises instead of returning a string. -/
theorem claim_C2_counterexample :
    expandFileTokensE "a".data (Sum.inr "abc".data) false = none := by decide

/-- Claim C2, amended: for every template and flag value, and every token
mapping given as a dictionary, `expandFileTokens` never raises and returns a
string (the explicit-exception model `expandFileTokensE` always returns
`some`); and a template without `']'` has no bracket-group match, so its
unmatched single brackets are carried through the split as literal text.
The string form of the mapping, however, can raise while being parsed
(`claim_C2_counterexample`). -/
theorem claim_C2 (path : List Char) (m : TokenMap) (lum : Bool) :
    expandFileTokensE path (Sum.inl m) lum
      = some (expandFileTokens path m lum) ∧
    (']' ∉ path → grpSplit path = [path]) := by
  refine ⟨rfl, fun hmem => ?_⟩
  have h := (grpSplitGo_no_rbracket path hmem []).1
  simpa [grpSplit] using h

/-- Witness for C2 at a concrete input with an unmatched single bracket. -/
theorem claim_C2_witness :
    (']' ∉ "a[b".data) ∧
    expandFileTokensE "a[b".data (Sum.inl []) false
      = some (expandFileTokens "a[b".data [] false) ∧
    grpSplit "a[b".data = ["a[b".data] :=
  ⟨by decide, (claim_C2 "a[b".data [] false).1,
    (claim_C2 "a[b".data [] false).2 (by decide)⟩

/-- Reading group content: while no `']'` has been seen, every character
joins the candidate group's content. -/
theorem grpSplitGo_capture_through :
    ∀ (l : List Char), ']' ∉ l → ∀ (content lit rest : List Char),
      grpSplitGo (some content) lit (l ++ rest)
        = grpSplitGo (some (l.reverse ++ content)) lit rest := by
  intro l
  induction l with
  | nil => intro _ content lit rest; simp
  | cons c l' ih =>
    intro hmem content lit rest
    have hc : c ≠ ']' := fun h => hmem (h ▸ List.mem_cons_self c l')
    have hl' : ']' ∉ l' := fun h => hmem (List.mem_cons_of_mem c h)
    have h := ih hl' (c :: content) lit rest
    simpa [grpSplitGo, hc, List.append_assoc] using h

/-- A bracketed span `[grp]` with non-empty, `']'`-free content is matched as
one group: the brackets are consumed by the split and `grp` becomes the
group piece. -/
theorem grpSplit_wrap (grp : List Char) (hne : grp ≠ []) (hnb : ']' ∉ grp) :
    grpSplit ('[' :: (grp ++ [']'])) = [[], grp, []] := by
  unfold grpSplit
  have h1 : grpSplitGo none [] ('[' :: (grp ++ [']']))
      = grpSplitGo (some []) [] (grp ++ [']']) := by simp [grpSplitGo]
  rw [h1, grpSplitGo_capture_through grp hnb [] [] [']']]
  have hne' : (grp.reverse ++ []).isEmpty = false := by
    simp [List.isEmpty_iff, hne]
  simp [grpSplitGo, hne', hne]

/-- A parts list that is a single literal substitutes to itself, in either
mode. -/
theorem _substitute_single (l : List Char) (tokens : TokenMap)
    (aon lum : Bool) : _substitute [l] tokens aon lum = l := by
  simp [_substitute, substAux, even]

/-- Claim C9: a bracket group whose content contains no recognizable
placeholder (its token split is the single piece `[grp]`) expands — in the
all-or-nothing mode `expandFileTokens` applies to groups — to its content
unchanged, for every token mapping and flag value: the all-or-nothing
substitution succeeds vacuously, the content is kept, and (second conjunct)
the brackets themselves are stripped by the split, so `[grp]` as a whole
template expands to `grp`. -/
theorem claim_C9 (grp : List Char) (tokens : TokenMap) (lum : Bool)
    (h : tokSplit grp = [grp]) :
    _substitute (tokSplit grp) tokens true lum = grp ∧
    (grp ≠ [] → ']' ∉ grp →
      expandFileTokens ('[' :: (grp ++ [']'])) tokens lum = grp) := by
  have hsub : _substitute (tokSplit grp) tokens true lum = grp := by
    rw [h]; exact _substitute_single grp tokens true lum
  refine ⟨hsub, fun hne hnb => ?_⟩
  unfold expandFileTokens
  rw [grpSplit_wrap grp hne hnb]
  have hnil : tokSplit ([] : List Char) = [[]] := rfl
  have h0 : even 0 = false := rfl
  have h1 : even 1 = true := rfl
  have h2 : even 2 = false := rfl
  simp [expandPieces, h0, h1, h2, hnil, _substitute_single, hsub]

/-- Witness for C9 at the concrete group `[abc]`. -/
theorem claim_C9_witness :
    tokSplit "abc".data = ["abc".data] ∧
    _substitute (tokSplit "abc".data) [] false true = "abc".data ∧
    expandFileTokens ('[' :: ("abc".data ++ [']'])) [] false = "abc".data := by
  have h := claim_C9 "abc".data [] false (by decide)
  exact ⟨by decide, h.1, h.2 (by decide) (by decide)⟩

/-- Every name the placeholder split captures is non-empty: `<>` is never
recognized as a placeholder. -/
theorem capturesNonempty_tokSplitGo :
    ∀ (s lit : List Char) (i : Nat), even i = false →
      (capturesNonempty i (tokSplitGo none lit s) = true ∧
       ∀ tok, capturesNonempty i (tokSplitGo (some tok) lit s) = true) := by
  intro s
  induction s with
  | nil =>
    intro lit i hi
    constructor
    · simp [tokSplitGo, capturesNonempty, hi]
    · intro tok; simp [tokSplitGo, capturesNonempty, hi]
  | cons c rest ih =>
    intro lit i hi
    constructor
    · by_cases hc : c = '<'
      · subst hc
        have h := (ih lit i hi).2 []
        simpa [tokSplitGo] using h
      · have h := (ih (c :: lit) i hi).1
        simpa [tokSplitGo, hc] using h
    · intro tok
      by_cases ha : isTokenChar c
      · have h := (ih lit i hi).2 (c :: tok)
        simpa [tokSplitGo, ha] using h
      · by_cases hgt : c = '>'
        · subst hgt
          by_cases hemp : tok.isEmpty
          · have h := (ih ('>' :: '<' :: lit) i hi).1
            simpa [tokSplitGo, ha, hemp] using h
          · rw [Bool.not_eq_true] at hemp
            have htne : tok ≠ [] := by
              intro h; rw [h] at hemp; simp at hemp
            have htok : (tok.reverse).isEmpty = false := by
              rw [Bool.eq_false_iff]
              simpa [List.isEmpty_iff] using htne
            have hrec := (ih [] (i+2) (by rw [even_add_two]; exact hi)).1
            have hsucc : even (i+1) = true := by rw [even_succ, hi]; rfl
            simp [tokSplitGo, ha, hemp, capturesNonempty, hi, hsucc, htok,
              show i + 1 + 1 = i + 2 from rfl, hrec]
        · by_cases hlt : c = '<'
          · subst hlt
            have h := (ih (tok ++ ('<' :: lit)) i hi).2 []
            simpa [tokSplitGo, ha, hgt] using h
          · have h := (ih (c :: (tok ++ ('<' :: lit))) i hi).1
            simpa [tokSplitGo, ha, hgt, hlt] using h

/-- Every content the bracket split captures is non-empty: `[]` is never
recognized as a group. -/
theorem capturesNonempty_grpSplitGo :
    ∀ (s lit : List Char) (i : Nat), even i = false →
      (capturesNonempty i (grpSplitGo none lit s) = true ∧
       ∀ content, capturesNonempty i (grpSplitGo (some content) lit s) = true) := by
  intro s
  induction s with
  | nil =>
    intro lit i hi
    constructor
    · simp [grpSplitGo, capturesNonempty, hi]
    · intro content; simp [grpSplitGo, capturesNonempty, hi]
  | cons c rest ih =>
    intro lit i hi
    constructor
    · by_cases hb : c = '['
      · subst hb
        have h := (ih lit i hi).2 []
        simpa [grpSplitGo] using h
      · have h := (ih (c :: lit) i hi).1
        simpa [grpSplitGo, hb] using h
    · intro content
      by_cases hc : c = ']'
      · subst hc
        by_cases hemp : content.isEmpty
        · have h := (ih (']' :: '[' :: lit) i hi).1
          simpa [grpSplitGo, hemp] using h
        · rw [Bool.not_eq_true] at hemp
          have hcne : content ≠ [] := by
            intro h; rw [h] at hemp; simp at hemp
          have hcont : (content.reverse).isEmpty = false := by
            rw [Bool.eq_false_iff]
            simpa [List.isEmpty_iff] using hcne
          have hrec := (ih [] (i+2) (by rw [even_add_two]; exact hi)).1
          have hsucc : even (i+1) = true := by rw [even_succ, hi]; rfl
          simp [grpSplitGo, hemp, capturesNonempty, hi, hsucc, hcont,
            show i + 1 + 1 = i + 2 from rfl, hrec]
      · have h := (ih lit i hi).2 (c :: content)
        simpa [grpSplitGo, hc] using h

/-- Claim C10: empty delimiter pairs are literal text.  For every template,
every piece captured by the bracket split and by the placeholder split is
non-empty — `[]` is never recognized as a group nor `<>` as a placeholder
(both regexes require non-empty content) — and on the template `a[]b<>c`,
for every token mapping and flag value, both pairs appear verbatim in the
result, which is the whole template unchanged. -/
theorem claim_C10 (s : List Char) (tokens : TokenMap) (lum : Bool) :
    capturesNonempty 0 (grpSplit s) = true ∧
    capturesNonempty 0 (tokSplit s) = true ∧
    expandFileTokens "a[]b<>c".data tokens lum = "a[]b<>c".data := by
  refine ⟨(capturesNonempty_grpSplitGo s [] 0 rfl).1,
          (capturesNonempty_tokSplitGo s [] 0 rfl).1, ?_⟩
  unfold expandFileTokens
  rw [show grpSplit "a[]b<>c".data = ["a[]b<>c".data] from by decide]
  have h0 : even 0 = false := rfl
  simp only [expandPieces, h0, Bool.false_eq_true, if_false, List.flatten,
    List.append_nil]
  rw [show tokSplit "a[]b<>c".data = ["a[]b<>c".data] from by decide]
  exact _substitute_single _ tokens false lum
